import Mathlib

set_option autoImplicit false

/-!
Shallow embedding of `spacy_span_analyzer/analyzer.py`.

Documents are token lists with a mapping from span-layer name to a list of
labeled spans; the analyzer computes corpus-wide metric tables.  Python dicts
and Counters are modelled as insertion-ordered association lists; float
arithmetic on exact counts and ratios is modelled over `ℚ`, with `ℝ` (and
`Real.log` / `Real.exp`) for the transcendental parts (`math.log`, scipy
`gmean`).  Fallible dictionary lookups and the error-raising paths of
`_get_kl_divergence` are modelled with `Except`.
-/

namespace SpanAnalyzer

/-- A labeled span; `stop` models Python `span.end` (exclusive token index),
`label_` models `span.label_` (`none` models a null label). -/
structure Sp where
  label_ : Option String
  start : Nat
  stop : Nat
  deriving DecidableEq, Repr

/-- A document: its tokens (token text at each 0-based position) and its
`doc.spans` mapping from span-layer name to the spans of that layer.
The association list models a Python dict in insertion order. -/
structure Doc where
  tokens : List String
  spans : List (String × List Sp)
  deriving DecidableEq, Repr

/-- First-match association-list lookup; models Python `d[k]` / `k in d`. -/
def getVal? {κ ν : Type} [DecidableEq κ] : List (κ × ν) → κ → Option ν
  | [], _ => none
  | (a, b) :: t, k => if a = k then some b else getVal? t k

/-- Update the value at the first occurrence of `k` (no-op when absent);
models in-place mutation `d[k] = f(d[k])` of a dict entry. -/
def updateVal {κ ν : Type} [DecidableEq κ] : List (κ × ν) → κ → (ν → ν) → List (κ × ν)
  | [], _, _ => []
  | (a, b) :: t, k, f => if a = k then (a, f b) :: t else (a, b) :: updateVal t k f

/-- Models `if k not in d: d[k] = v` (dicts append new keys at the end). -/
def ensureKey {κ ν : Type} [DecidableEq κ] (m : List (κ × ν)) (k : κ) (v : ν) :
    List (κ × ν) :=
  if (getVal? m k).isSome then m else m ++ [(k, v)]

def backtick : Char := Char.ofNat 96

def apos : Char := Char.ofNat 39

def dquote : Char := Char.ofNat 34

/-- Python `str.replace(pat, rep)` for a two-character pattern `[a, b]` and a
one-character replacement `[r]`: left-to-right, non-overlapping. -/
def replace2 (a b r : Char) : List Char → List Char
  | [] => []
  | [x] => [x]
  | x :: y :: t2 =>
    if x = a ∧ y = b then r :: replace2 a b r t2 else x :: replace2 a b r (y :: t2)
termination_by l => l.length
decreasing_by
  all_goals (simp only [List.length_cons]; omega)

/-- `SpanAnalyzer._normalize_text`: lowercase, then replace two backticks by a
double quote, then replace two apostrophes by a double quote. -/
def _normalize_text (s : String) : String :=
  String.mk (replace2 apos apos dquote (replace2 backtick backtick dquote
    (s.data.map Char.toLower)))

/-- Normalization as the spec words it: lowercase, then in one left-to-right
pass replace every (non-overlapping) occurrence of the two-character sequence
backtick-backtick by a double quote and every occurrence of
apostrophe-apostrophe by a double quote, making no other change. -/
def specReplaceQuotes : List Char → List Char
  | [] => []
  | [x] => [x]
  | x :: y :: t2 =>
    if (x = backtick ∧ y = backtick) ∨ (x = apos ∧ y = apos) then
      dquote :: specReplaceQuotes t2
    else x :: specReplaceQuotes (y :: t2)
termination_by l => l.length
decreasing_by
  all_goals (simp only [List.length_cons]; omega)

/-- Spec-worded normalization (see `specReplaceQuotes`). -/
def specNormalizeText (s : String) : String :=
  String.mk (specReplaceQuotes (s.data.map Char.toLower))

/-- One `word_counts[w] += 1` step of a Python `Counter` (new keys appended). -/
def bumpQ : List (String × ℚ) → String → List (String × ℚ)
  | [], k => [(k, 1)]
  | (a, v) :: t, k => if a = k then (a, v + 1) :: t else (a, v) :: bumpQ t k

/-- The `Counter` built by tallying a list of already-normalized words. -/
def wordCounts (ws : List String) : List (String × ℚ) := ws.foldl bumpQ []

/-- `sum(word_counts.values(), 0.0)`. -/
def sumVals (m : List (String × ℚ)) : ℚ := (m.map Prod.snd).sum

/-- `SpanAnalyzer._get_distribution` in container mode (`unigrams=False`):
tally the normalized text of every token of every item, then optionally divide
each count by the total.  An item is given by its token-text list; in unigram
mode the code tallies each item's own text once, which is this function applied
to the singleton lists (see `unigramDistribution`). -/
def _get_distribution (texts : List (List String)) (normalize : Bool) :
    List (String × ℚ) :=
  let wc := wordCounts (texts.flatten.map _normalize_text)
  if normalize then wc.map (fun p => (p.1, p.2 / sumVals wc)) else wc

/-- `SpanAnalyzer._get_distribution` with `unigrams=True` over a flat token
list (used for boundary tokens): one count per item. -/
def unigramDistribution (tokens : List String) (normalize : Bool) :
    List (String × ℚ) :=
  _get_distribution (tokens.map fun t => [t]) normalize

/-- Counter lookup with default 0, as in `q[word]` on a `Counter`. -/
def getQ (m : List (String × ℚ)) (w : String) : ℚ := (getVal? m w).getD 0

/-- The two runtime failures of `_get_kl_divergence`: float division by zero
(`p_word / q[word]` with `q[word] == 0`) and `math.log` of a non-positive
ratio (`ValueError`). -/
inductive KLErr where
  | divByZero
  | logDomain
  deriving DecidableEq, Repr

/-- `SpanAnalyzer._get_kl_divergence`, split into its control flow: walk the
entries of `p` in order; for each entry fail exactly where Python would raise
(`ZeroDivisionError` when `q[word] == 0`, `ValueError` from `math.log` when
the ratio is not positive), otherwise record the pair `(p_word, q[word])`.
The real-valued total of a successful run is `klReal`. -/
def _get_kl_divergence : List (String × ℚ) → List (String × ℚ) → Except KLErr (List (ℚ × ℚ))
  | [], _ => .ok []
  | pr :: t, q =>
    let qw := getQ q pr.1
    if qw = 0 then .error .divByZero
    else if pr.2 / qw ≤ 0 then .error .logDomain
    else match _get_kl_divergence t q with
      | .ok ts => .ok ((pr.2, qw) :: ts)
      | .error e => .error e

/-- The value `total` accumulated by `_get_kl_divergence` on a successful run:
`Σ p_word * ln(p_word / q_word)` over the recorded pairs. -/
noncomputable def klReal (ts : List (ℚ × ℚ)) : ℝ :=
  (ts.map fun t => (t.1 : ℝ) * Real.log ((t.1 : ℝ) / (t.2 : ℝ))).sum

/-- scipy `gmean`: `exp(mean(log(xs)))` for non-empty input; on an empty
input scipy emits a placeholder (NaN/masked), modelled as `none`, and raises
no error. -/
noncomputable def gmean (xs : List ℚ) : Option ℝ :=
  if xs.isEmpty then none
  else some (Real.exp ((xs.map fun x => Real.log (x : ℝ)).sum / (xs.length : ℝ)))

/-- Token texts of a span: the slice `[start, stop)` of its document. -/
def spanTokens (d : Doc) (sp : Sp) : List String :=
  (d.tokens.drop sp.start).take (sp.stop - sp.start)

/-- Runtime errors of the analyzer: `KeyError` from `doc.spans[key]` and the
two arithmetic errors of `_get_kl_divergence`. -/
inductive Err where
  | keyError (k : String)
  | kl (e : KLErr)
  deriving DecidableEq, Repr

/-- Indexing `doc.spans[key]`: `KeyError` when the layer is absent. -/
def docSpans (d : Doc) (k : String) : Except Err (List Sp) :=
  match getVal? d.spans k with
  | some g => .ok g
  | none => .error (.keyError k)

/-- `for spans_key in list(doc.spans.keys()): ... doc.spans[spans_key]`: the
key list of a document paired with the result of indexing each key. -/
def docItems (d : Doc) : Except Err (List (String × List Sp)) :=
  (d.spans.map Prod.fst).mapM (fun k => (docSpans d k).map (fun g => (k, g)))

/-- One `frequency[spans_key][span.label_] += 1` step of a `Counter`. -/
def bumpN : List (String × Nat) → String → List (String × Nat)
  | [], k => [(k, 1)]
  | (a, v) :: t, k => if a = k then (a, v + 1) :: t else (a, v) :: bumpN t k

/-- The per-span body of `SpanAnalyzer.frequency`: skip a null label, else
increment the label's count. -/
def freqStepInner (c : List (String × Nat)) (sp : Sp) : List (String × Nat) :=
  match sp.label_ with
  | none => c
  | some l => bumpN c l

/-- The per-layer body of `SpanAnalyzer.frequency`: make sure the layer has a
`Counter`, then tally every span of the layer's group in this document. -/
def stepFreq (t : List (String × List (String × Nat))) (kv : String × List Sp) :
    List (String × List (String × Nat)) :=
  let t1 := ensureKey t kv.1 []
  updateVal t1 kv.1 (fun c => kv.2.foldl freqStepInner c)

/-- `SpanAnalyzer.frequency` over the dict entries of each document (a dict's
`keys()` iteration followed by `doc.spans[key]` visits exactly its entries). -/
def frequency (docs : List Doc) : List (String × List (String × Nat)) :=
  docs.foldl (fun t d => d.spans.foldl stepFreq t) []

/-- `SpanAnalyzer.frequency` with the `doc.spans[spans_key]` lookups explicit
(they are taken on each document's own key list, so they cannot fail). -/
def frequencyE (docs : List Doc) : Except Err (List (String × List (String × Nat))) :=
  docs.foldlM (fun t d => (docItems d).map (fun items => items.foldl stepFreq t)) []

/-- The per-span body of the first phase of `SpanAnalyzer.length`: skip a null
label; if the label is new, create an empty list WITHOUT recording this span's
length (the `elif`/`else` slip in the source); else append `len(span)`. -/
def lenStepInner (c : List (String × List Nat)) (sp : Sp) : List (String × List Nat) :=
  match sp.label_ with
  | none => c
  | some l =>
    match getVal? c l with
    | none => c ++ [(l, [])]
    | some _ => updateVal c l (fun v => v ++ [sp.stop - sp.start])

/-- The per-layer body of the first phase of `SpanAnalyzer.length`. -/
def stepLen (t : List (String × List (String × List Nat))) (kv : String × List Sp) :
    List (String × List (String × List Nat)) :=
  let t1 := ensureKey t kv.1 []
  updateVal t1 kv.1 (fun c => kv.2.foldl lenStepInner c)

/-- First phase of `SpanAnalyzer.length`: the `_length` table of per-type
length lists, over the dict entries of each document. -/
def lengthLists (docs : List Doc) : List (String × List (String × List Nat)) :=
  docs.foldl (fun t d => d.spans.foldl stepLen t) []

/-- First phase of `SpanAnalyzer.length` with the `doc.spans[spans_key]`
lookups explicit. -/
def lengthListsE (docs : List Doc) :
    Except Err (List (String × List (String × List Nat))) :=
  docs.foldlM (fun t d => (docItems d).map (fun items => items.foldl stepLen t)) []

/-- `SpanAnalyzer.length`: geometric mean of each collected length list. -/
noncomputable def length (docs : List Doc) :
    List (String × List (String × Option ℝ)) :=
  (lengthLists docs).map fun kv =>
    (kv.1, kv.2.map fun tv => (tv.1, gmean (tv.2.map fun n => (n : ℚ))))

/-- `SpanAnalyzer.length` with the `doc.spans[spans_key]` lookups explicit. -/
noncomputable def lengthE (docs : List Doc) :
    Except Err (List (String × List (String × Option ℝ))) :=
  (lengthListsE docs).map fun t => t.map fun kv =>
    (kv.1, kv.2.map fun tv => (tv.1, gmean (tv.2.map fun n => (n : ℚ))))

/-- `SpanAnalyzer._get_all_keys`: the set of span-layer names over all
documents (modelled as a duplicate-free list). -/
def _get_all_keys (docs : List Doc) : List String :=
  (docs.flatMap fun d => d.spans.map Prod.fst).dedup

/-- `SpanAnalyzer._get_all_spans_in_key`: group the corpus-wide spans of one
layer by label.  A span whose label is NOT yet a key only creates the empty
group; only later spans of the same label are appended (the `if`/`else` slip
in the source).  Each recorded span is materialized as its token-text list. -/
def _get_all_spans_in_keyE (docs : List Doc) (key : String) :
    Except Err (List (Option String × List (List String))) :=
  docs.foldlM (fun sps d =>
    (docSpans d key).map (fun group =>
      group.foldl (fun sps sp =>
        if (getVal? sps sp.label_).isSome then
          updateVal sps sp.label_ (fun v => v ++ [spanTokens d sp])
        else sps ++ [(sp.label_, [])]) sps)) []

/-- The per-span body of `_get_all_boundaries_in_key`: a new label only
creates the empty start/end lists (same `if`/`else` slip); for later spans the
code appends `doc[span.start - 1]` when `span.start - 1 >= 0` and
`doc[span.end + 1]` when `span.end + 1 < len(doc)` — note `end + 1`, one past
the first token after the span. -/
def boundaryStep (d : Doc) (bd : List (Option String × (List String × List String)))
    (sp : Sp) : List (Option String × (List String × List String)) :=
  if (getVal? bd sp.label_).isSome then
    let bd1 :=
      if 1 ≤ sp.start then
        updateVal bd sp.label_ (fun v => (v.1 ++ [d.tokens.getD (sp.start - 1) ""], v.2))
      else bd
    if sp.stop + 1 < d.tokens.length then
      updateVal bd1 sp.label_ (fun v => (v.1, v.2 ++ [d.tokens.getD (sp.stop + 1) ""]))
    else bd1
  else bd ++ [(sp.label_, ([], []))]

/-- `SpanAnalyzer._get_all_boundaries_in_key`. -/
def _get_all_boundaries_in_keyE (docs : List Doc) (key : String) :
    Except Err (List (Option String × (List String × List String))) :=
  docs.foldlM (fun bd d => (docSpans d key).map (fun group => group.foldl (boundaryStep d) bd)) []

/-- `self.p_corpus`: the normalized unigram distribution of the corpus. -/
def p_corpus (docs : List Doc) : List (String × ℚ) :=
  _get_distribution (docs.map Doc.tokens) true

/-- Embed a `_get_kl_divergence` failure into the analyzer's error type. -/
def liftKL {α : Type} : Except KLErr α → Except Err α
  | .ok a => .ok a
  | .error e => .error (.kl e)

/-- The per-layer-key body of `span_distinctiveness`: group the key's spans
by type and compute each type's KL transcript against the corpus
distribution. -/
def spanKeyKL (docs : List Doc) (key : String) :
    Except Err (String × List (Option String × List (ℚ × ℚ))) := do
  let groups ← _get_all_spans_in_keyE docs key
  let res ← groups.mapM (fun g => do
    let ts ← liftKL (_get_kl_divergence (_get_distribution g.2 true) (p_corpus docs))
    pure (g.1, ts))
  pure (key, res)

/-- `SpanAnalyzer.span_distinctiveness`: for every layer key (of the corpus
union) and every span type, the KL transcript of `D(P_span || P_corpus)`. -/
def span_distinctivenessE (docs : List Doc) :
    Except Err (List (String × List (Option String × List (ℚ × ℚ)))) :=
  (_get_all_keys docs).mapM (spanKeyKL docs)

/-- The per-layer-key body of `boundary_distinctiveness`: collect the key's
start+end boundary tokens per type (unigram mode) and compute each type's KL
transcript against the corpus distribution. -/
def boundsKeyKL (docs : List Doc) (key : String) :
    Except Err (String × List (Option String × List (ℚ × ℚ))) := do
  let bounds ← _get_all_boundaries_in_keyE docs key
  let res ← bounds.mapM (fun g => do
    let ts ← liftKL (_get_kl_divergence
      (unigramDistribution (g.2.1 ++ g.2.2) true) (p_corpus docs))
    pure (g.1, ts))
  pure (key, res)

/-- `SpanAnalyzer.boundary_distinctiveness`: same, over the start+end boundary
tokens of each span type, in unigram mode. -/
def boundary_distinctivenessE (docs : List Doc) :
    Except Err (List (String × List (Option String × List (ℚ × ℚ)))) :=
  (_get_all_keys docs).mapM (boundsKeyKL docs)

/-- `np.average(values, weights)`: `Σ v·w / Σ w`; raises (modelled `none`)
on mismatched lengths or a zero weight sum. -/
def npAverage (xs ws : List ℚ) : Option ℚ :=
  if xs.length = ws.length ∧ ws.sum ≠ 0 then
    some (((xs.zip ws).map fun p => p.1 * p.2).sum / ws.sum)
  else none

/-- Top-level `weighted_average`: per layer, `np.average` of the metric
table's values weighted by the frequency table's values — both taken in table
order (`list(dict.values())`), i.e. matched positionally. -/
def weighted_average (span_metrics freqs : List (String × List (String × ℚ))) :
    Option (List (String × ℚ)) :=
  span_metrics.mapM (fun kv => do
    let fd ← getVal? freqs kv.1
    let v ← npAverage (kv.2.map Prod.snd) (fd.map Prod.snd)
    pure (kv.1, v))

/-- The weighted mean as the spec words it: each metric value is weighted by
the frequency count of the SAME span type, matched by type key. -/
def keyWeightedMean (td fd : List (String × ℚ)) : Option ℚ :=
  let wsum := (td.map fun tv => getQ fd tv.1).sum
  if wsum = 0 then none
  else some ((td.map fun tv => tv.2 * getQ fd tv.1).sum / wsum)

/-- `weighted_average` as the spec words it (weights matched by type key). -/
def spec_weighted_average (span_metrics freqs : List (String × List (String × ℚ))) :
    Option (List (String × ℚ)) :=
  span_metrics.mapM (fun kv => do
    let fd ← getVal? freqs kv.1
    let v ← keyWeightedMean kv.2 fd
    pure (kv.1, v))

/-- Inner-counter lookup with default 0 (`Counter[label]`). -/
def getN (c : List (String × Nat)) (l : String) : Nat := (getVal? c l).getD 0

/-- `frequency[key][label]` read off a frequency table (0 when absent). -/
def lookupCount (t : List (String × List (String × Nat))) (key label : String) : Nat :=
  getN ((getVal? t key).getD []) label

/-- The number of spans bearing `label` in layer `key` across the corpus. -/
def countSpans (docs : List Doc) (key label : String) : Nat :=
  ((docs.flatMap fun d => d.spans.flatMap fun kv => if kv.1 = key then kv.2 else []).countP
    (fun sp => decide (sp.label_ = some label)))

/-- A document's span layer of `key`, contributed to `countSpans`. -/
def docSpanCount (d : Doc) (key label : String) : Nat :=
  ((d.spans.flatMap fun kv => if kv.1 = key then kv.2 else []).countP
    (fun sp => decide (sp.label_ = some label)))

/-- Alignment of a metric table with a frequency table: every layer of the
metric table is present in the frequency table, lists the same type keys in
the same order (duplicate-free), and has a non-zero total frequency. -/
def alignedB (m f : List (String × List (String × ℚ))) : Bool :=
  m.all fun kv =>
    match getVal? f kv.1 with
    | some fd =>
      decide (fd.map Prod.fst = kv.2.map Prod.fst) &&
      decide ((fd.map Prod.fst).Nodup) &&
      decide ((fd.map Prod.snd).sum ≠ 0)
    | none => false

/-- Spec invariant on spans (`0 <= start < end <= len(document)`), weakened
to what the boundary/slice arguments need: `start ≤ stop ≤ len`. -/
def corpusWF (docs : List Doc) : Prop :=
  ∀ d ∈ docs, ∀ kv ∈ d.spans, ∀ sp ∈ kv.2, sp.start ≤ sp.stop ∧ sp.stop ≤ d.tokens.length

/-- The 1-document corpus of the spec's end-to-end scenario: tokens
`["The","drug","aspirin","reduces","pain","."]`, layer `sc`, one span
`DRUG` with `start = 2`, `end = 3`. -/
def exDocC1 : Doc :=
  ⟨["The", "drug", "aspirin", "reduces", "pain", "."], [("sc", [⟨some ("DRUG"), 2, 3⟩])]⟩

/-- The same document with the `DRUG 2..3` span annotated twice, so that the
second occurrence gets past the first-span slip of the boundary extractor. -/
def exDocC1two : Doc :=
  ⟨["The", "drug", "aspirin", "reduces", "pain", "."],
    [("sc", [⟨some ("DRUG"), 2, 3⟩, ⟨some ("DRUG"), 2, 3⟩])]⟩

/-- A 1-document corpus whose layer `sc` has exactly two spans of type `X`,
of token lengths 2 and 8. -/
def exDocC2 : Doc :=
  ⟨["a", "b", "c", "d", "e", "f", "g", "h"],
    [("sc", [⟨some ("X"), 0, 2⟩, ⟨some ("X"), 0, 8⟩])]⟩

/-! Theorems. -/

/-- Claim C1: boundary extraction is claimed to return, for window 1 and the
spec's example span `DRUG [2, 3)` in tokens
`["The","drug","aspirin","reduces","pain","."]`, the left boundary `["drug"]`
and the right boundary `["reduces"]`.  The code instead (a) records no
boundary tokens at all for the first span of each label (the `if`/`else`
slip), so the 1-span example yields empty boundary lists, and (b) for later
spans of an already-seen label appends `doc[span.end + 1]` — `"pain"` — in
place of the token immediately after the span, `doc[span.end]` =
`"reduces"`. -/
theorem boundaries_drop_first_span_and_skip_adjacent_token :
    _get_all_boundaries_in_keyE [exDocC1] "sc" = .ok [(some ("DRUG"), ([], []))]
    ∧ _get_all_boundaries_in_keyE [exDocC1two] "sc"
        = .ok [(some ("DRUG"), (["drug"], ["pain"]))]
    ∧ exDocC1.tokens.getD 3 "" = "reduces" := by
  refine ⟨by rfl, by rfl, by rfl⟩

/-- Claim C2: for a layer with exactly two spans of one type, of lengths 2
and 8, the length metric is claimed to be the geometric mean `sqrt(2*8) = 4`.
The code's `elif`/`else` slip drops the first span of each type from the
collected length list, so it collects `[8]` and reports `gmean [8] = 8`,
not `gmean [2, 8] = 4`. -/
theorem length_drops_first_span_of_each_type :
    lengthListsE [exDocC2] = .ok [("sc", [("X", [8])])]
    ∧ gmean [8] = some 8
    ∧ gmean [2, 8] = some 4
    ∧ (8 : ℝ) ≠ 4 := by
  refine ⟨by rfl, ?_, ?_, by norm_num⟩
  · have h8 : ((8 : ℚ) : ℝ) = 8 := by norm_num
    simp [gmean, h8, Real.exp_log, show (0:ℝ) < 8 by norm_num]
  · have h2 : ((2 : ℚ) : ℝ) = 2 := by norm_num
    have h8 : ((8 : ℚ) : ℝ) = 8 := by norm_num
    have hlog8 : Real.log 8 = Real.log 2 + Real.log 2 + Real.log 2 := by
      rw [show (8 : ℝ) = 2 * 2 * 2 by norm_num, Real.log_mul (by norm_num) (by norm_num),
        Real.log_mul (by norm_num) (by norm_num)]
    have hsum : (Real.log 2 + Real.log 8) / 2 = Real.log 2 + Real.log 2 := by
      rw [hlog8]; ring
    simp only [gmean, List.isEmpty_cons, List.map_cons, List.map_nil, List.sum_cons,
      List.sum_nil, List.length_cons, List.length_nil, h2, h8]
    norm_num [hsum, Real.exp_add, Real.exp_log, show (0:ℝ) < 2 by norm_num]

/-- Claim C5 counterexample: the geometric mean of an empty length list and
the KL divergence of an empty distribution are claimed to FAIL with a
statistical-domain error; instead scipy's `gmean` returns a NaN/masked
placeholder (modelled `none`) and `_get_kl_divergence` succeeds with total
`0`. -/
theorem empty_stat_inputs_do_not_fail :
    _get_kl_divergence [] [] = .ok [] ∧ klReal [] = 0 ∧ gmean [] = none :=
  ⟨rfl, by simp [klReal], by simp [gmean]⟩

/-- Claim C5 amended: on empty statistical input the code returns placeholder
values and raises nothing: `gmean` of an empty list yields the NaN/masked
placeholder, and the KL divergence of an empty `P` against any `Q` succeeds
with total `0`. -/
theorem empty_stat_inputs_return_placeholders :
    gmean [] = none ∧ klReal [] = 0
    ∧ ∀ q : List (String × ℚ), _get_kl_divergence [] q = .ok [] :=
  ⟨by simp [gmean], by simp [klReal], fun _ => rfl⟩

/-- Claim C9 counterexample: `weighted_average` is claimed to weight each
metric value by the frequency of the SAME span type, matched by type key.
For the metric table `sc: {A: 1, B: 2}` and frequency table
`sc: {B: 10, A: 0}` (same layers and span types), the key-matched weighted
mean is `2`, but the code zips the two value lists positionally and returns
`1`. -/
theorem weighted_average_by_key_counterexample :
    weighted_average [("sc", [("A", 1), ("B", 2)])] [("sc", [("B", 10), ("A", 0)])]
      = some [("sc", 1)]
    ∧ spec_weighted_average [("sc", [("A", 1), ("B", 2)])] [("sc", [("B", 10), ("A", 0)])]
      = some [("sc", 2)]
    ∧ (1 : ℚ) ≠ 2 := by
  refine ⟨?_, ?_, by norm_num⟩
  · simp [weighted_average, npAverage, getVal?, List.mapM, List.mapM.loop]
  · simp [spec_weighted_average, keyWeightedMean, getQ, getVal?, List.mapM, List.mapM.loop]

/-- Scanning past a character that cannot start the pattern. -/
theorem replace2_cons_of_ne {a b r z : Char} (M : List Char) (hz : z ≠ a) :
    replace2 a b r (z :: M) = z :: replace2 a b r M := by
  cases M with
  | nil => simp [replace2]
  | cons m M => simp [replace2, hz]

/-- Scanning past a non-matching two-character window. -/
theorem replace2_cons₂_of_not {a b r x y : Char} (t : List Char)
    (h : ¬(x = a ∧ y = b)) :
    replace2 a b r (x :: y :: t) = x :: replace2 a b r (y :: t) := by
  simp [replace2, h]

/-- The head of a replacement pass on a non-empty list is the original head or
the replacement character. -/
theorem replace2_head (a b r y : Char) (t : List Char) :
    ∃ M, replace2 a b r (y :: t) = y :: M ∨ replace2 a b r (y :: t) = r :: M := by
  cases t with
  | nil => exact ⟨[], Or.inl (by simp [replace2])⟩
  | cons z t =>
    by_cases h : y = a ∧ z = b
    · exact ⟨replace2 a b r t, Or.inr (by simp [replace2, h])⟩
    · exact ⟨replace2 a b r (z :: t), Or.inl (by simp [replace2, h])⟩

/-- The two sequential `str.replace` passes of `_normalize_text` coincide with
the one simultaneous left-to-right pass of the spec wording. -/
theorem replace_pipeline_eq_spec (l : List Char) :
    replace2 apos apos dquote (replace2 backtick backtick dquote l)
      = specReplaceQuotes l := by
  have main : ∀ (n : Nat) (l : List Char), l.length ≤ n →
      replace2 apos apos dquote (replace2 backtick backtick dquote l)
        = specReplaceQuotes l := by
    intro n
    induction n with
    | zero =>
      intro l hl
      have hnil : l = [] := List.length_eq_zero.mp (Nat.le_zero.mp hl)
      subst hnil
      simp [replace2, specReplaceQuotes]
    | succ n ih =>
      intro l hl
      rcases l with _ | ⟨x, _ | ⟨y, t⟩⟩
      · simp [replace2, specReplaceQuotes]
      · simp [replace2, specReplaceQuotes]
      · have hlt : t.length ≤ n := by
          simp only [List.length_cons] at hl; omega
        have hlyt : (y :: t).length ≤ n := by
          simp only [List.length_cons] at hl ⊢; omega
        by_cases hbb : x = backtick ∧ y = backtick
        · obtain ⟨hx, hy⟩ := hbb
          subst hx; subst hy
          have h1 : replace2 backtick backtick dquote (backtick :: backtick :: t)
              = dquote :: replace2 backtick backtick dquote t := by
            simp [replace2]
          rw [h1, replace2_cons_of_ne _ (by decide), ih t hlt]
          simp [specReplaceQuotes]
        · by_cases haa : x = apos ∧ y = apos
          · obtain ⟨hx, hy⟩ := haa
            subst hx; subst hy
            have h1 : replace2 backtick backtick dquote (apos :: apos :: t)
                = apos :: apos :: replace2 backtick backtick dquote t := by
              rw [replace2_cons_of_ne _ (by decide), replace2_cons_of_ne _ (by decide)]
            have h2 : replace2 apos apos dquote
                  (apos :: apos :: replace2 backtick backtick dquote t)
                = dquote :: replace2 apos apos dquote
                    (replace2 backtick backtick dquote t) := by
              simp [replace2]
            rw [h1, h2, ih t hlt]
            simp [specReplaceQuotes, hbb]
          · have h1 : replace2 backtick backtick dquote (x :: y :: t)
                = x :: replace2 backtick backtick dquote (y :: t) :=
              replace2_cons₂_of_not t hbb
            obtain ⟨M, hM | hM⟩ := replace2_head backtick backtick dquote y t
            · have h2 : replace2 apos apos dquote (x :: y :: M)
                  = x :: replace2 apos apos dquote (y :: M) :=
                replace2_cons₂_of_not M haa
              rw [h1, hM, h2, ← hM, ih (y :: t) hlyt]
              simp [specReplaceQuotes, hbb, haa]
            · have h2 : replace2 apos apos dquote (x :: dquote :: M)
                  = x :: replace2 apos apos dquote (dquote :: M) :=
                replace2_cons₂_of_not M (by simp [show dquote ≠ apos by decide])
              rw [h1, hM, h2, ← hM, ih (y :: t) hlyt]
              simp [specReplaceQuotes, hbb, haa]
  exact main l.length l le_rfl

/-- Claim C7: the text normalization lowercases the string and then replaces
every (left-to-right, non-overlapping) occurrence of two backticks by a double
quote and every occurrence of two apostrophes by a double quote, and makes no
other change: `_normalize_text` (two sequential Python `replace` passes over
the lowercased text) equals the spec-worded single replacement pass
`specNormalizeText`. -/
theorem normalize_text_matches_spec (s : String) :
    _normalize_text s = specNormalizeText s := by
  unfold _normalize_text specNormalizeText
  rw [replace_pipeline_eq_spec]

/-- One counter bump adds one to the bumped key and nothing elsewhere. -/
theorem getQ_bumpQ (m : List (String × ℚ)) (k w : String) :
    getQ (bumpQ m k) w = getQ m w + if w = k then 1 else 0 := by
  induction m with
  | nil =>
    by_cases h : w = k
    · simp [bumpQ, getQ, getVal?, h]
    · have h' : ¬k = w := fun hh => h hh.symm
      simp [bumpQ, getQ, getVal?, h, h']
  | cons p t ih =>
    obtain ⟨a, v⟩ := p
    simp only [bumpQ]
    by_cases hak : a = k
    · rw [if_pos hak]
      by_cases hwa : w = a
      · subst hwa; rw [← hak]; simp [getQ, getVal?]
      · have h' : ¬a = w := fun hh => hwa hh.symm
        rw [← hak]; simp [getQ, getVal?, hwa, h']
    · rw [if_neg hak]
      by_cases hwa : w = a
      · subst hwa; simp [getQ, getVal?, hak]
      · have h' : ¬a = w := fun hh => hwa hh.symm
        simp only [getQ, getVal?] at ih ⊢
        simp only [if_neg h']
        exact ih

/-- One counter bump adds one to the total. -/
theorem sumVals_bumpQ (m : List (String × ℚ)) (k : String) :
    sumVals (bumpQ m k) = sumVals m + 1 := by
  induction m with
  | nil => simp [bumpQ, sumVals]
  | cons p t ih =>
    obtain ⟨a, v⟩ := p
    by_cases hak : a = k
    · simp [bumpQ, sumVals, hak]; ring
    · simp only [bumpQ, if_neg hak, sumVals, List.map_cons, List.sum_cons]
      have ih' : (List.map Prod.snd (bumpQ t k)).sum = (List.map Prod.snd t).sum + 1 := by
        simpa [sumVals] using ih
      rw [ih']; ring

/-- Tallying `l` on top of `m` adds `l.length` to the total. -/
theorem sumVals_foldl_bumpQ (l : List String) (m : List (String × ℚ)) :
    sumVals (l.foldl bumpQ m) = sumVals m + l.length := by
  induction l generalizing m with
  | nil => simp
  | cons w l ih => simp [ih, sumVals_bumpQ]; ring

/-- The total of a word-count table is the number of tallied words. -/
theorem sumVals_wordCounts (l : List String) :
    sumVals (wordCounts l) = l.length := by
  rw [wordCounts, sumVals_foldl_bumpQ]
  simp [sumVals]

/-- The lookup of a tally over `m` counts occurrences on top of `m`. -/
theorem getQ_foldl_bumpQ (l : List String) (m : List (String × ℚ)) (w : String) :
    getQ (l.foldl bumpQ m) w = getQ m w + l.count w := by
  induction l generalizing m with
  | nil => simp
  | cons a l ih =>
    simp only [List.foldl_cons, ih, getQ_bumpQ, List.count_cons]
    by_cases h : w = a
    · subst h; simp; ring
    · have h' : ¬a = w := fun hh => h hh.symm
      simp [h, h']

/-- `Counter` lookup = occurrence count. -/
theorem getQ_wordCounts (l : List String) (w : String) :
    getQ (wordCounts l) w = l.count w := by
  rw [wordCounts, getQ_foldl_bumpQ]
  simp [getQ, getVal?]

/-- The key list of a bumped counter. -/
theorem bumpQ_keys (m : List (String × ℚ)) (k : String) :
    (bumpQ m k).map Prod.fst
      = if k ∈ m.map Prod.fst then m.map Prod.fst else m.map Prod.fst ++ [k] := by
  induction m with
  | nil => simp [bumpQ]
  | cons p t ih =>
    obtain ⟨a, v⟩ := p
    by_cases hak : a = k
    · simp [bumpQ, hak]
    · have hka : ¬k = a := fun hh => hak hh.symm
      simp only [bumpQ, if_neg hak, List.map_cons, ih]
      by_cases hk : k ∈ t.map Prod.fst <;> simp [hk, hka]

/-- Bumping preserves duplicate-freedom of the keys. -/
theorem bumpQ_keys_nodup {m : List (String × ℚ)} (k : String)
    (h : (m.map Prod.fst).Nodup) : ((bumpQ m k).map Prod.fst).Nodup := by
  rw [bumpQ_keys]
  by_cases hk : k ∈ m.map Prod.fst
  · simpa [hk] using h
  · rw [if_neg hk]
    refine List.Nodup.append h (List.nodup_singleton k) ?_
    intro a ha hb
    simp only [List.mem_singleton] at hb
    subst hb
    exact hk ha

/-- A word-count table has duplicate-free keys. -/
theorem wordCounts_keys_nodup (l : List String) :
    ((wordCounts l).map Prod.fst).Nodup := by
  have main : ∀ (l : List String) (m : List (String × ℚ)),
      (m.map Prod.fst).Nodup → ((l.foldl bumpQ m).map Prod.fst).Nodup := by
    intro l
    induction l with
    | nil => intro m hm; simpa using hm
    | cons a l ih => intro m hm; exact ih _ (bumpQ_keys_nodup a hm)
  exact main l [] (by simp)

/-- With duplicate-free keys, a stored entry is what lookup returns. -/
theorem getVal?_of_mem_nodup {ν : Type} {m : List (String × ν)} {pr : String × ν}
    (hnd : (m.map Prod.fst).Nodup) (hm : pr ∈ m) : getVal? m pr.1 = some pr.2 := by
  induction m with
  | nil => cases hm
  | cons q t ih =>
    obtain ⟨a, v⟩ := q
    simp only [List.map_cons, List.nodup_cons] at hnd
    rcases List.mem_cons.mp hm with h | h
    · subst h; simp [getVal?]
    · have hne : a ≠ pr.1 := by
        intro hEq
        exact hnd.1 (hEq ▸ List.mem_map_of_mem Prod.fst h)
      simp [getVal?, hne, ih hnd.2 h]

/-- A stored count is the occurrence count of its word. -/
theorem mem_wordCounts_val {l : List String} {pr : String × ℚ}
    (h : pr ∈ wordCounts l) : pr.2 = l.count pr.1 := by
  have h1 := getVal?_of_mem_nodup (wordCounts_keys_nodup l) h
  have h2 := getQ_wordCounts l pr.1
  rw [getQ, h1] at h2
  simpa using h2

/-- Dividing every value divides the total. -/
theorem sumVals_map_div (m : List (String × ℚ)) (T : ℚ) :
    sumVals (m.map fun p => (p.1, p.2 / T)) = sumVals m / T := by
  induction m with
  | nil => simp [sumVals]
  | cons p t ih => simp [sumVals, add_div] at ih ⊢; rw [ih]

/-- Claim C8: on a collection of token-bearing inputs with at least one token
overall, `_get_distribution` with `normalize=True` maps each word to its raw
count divided by the total count, and the values sum to exactly 1 (hence to
1.0 within any floating-point tolerance); on the empty collection it returns
the empty distribution, performing no division. -/
theorem distribution_normalization_sums_to_one (texts : List (List String))
    (h : texts.flatten ≠ []) :
    sumVals (_get_distribution texts true) = 1
    ∧ (∀ pr ∈ _get_distribution texts true,
        pr.2 = ((texts.flatten.map _normalize_text).count pr.1 : ℚ)
          / ((texts.flatten.map _normalize_text).length : ℚ))
    ∧ _get_distribution [] true = [] := by
  have hdist : _get_distribution texts true
      = (wordCounts (texts.flatten.map _normalize_text)).map
          fun p => (p.1, p.2 / sumVals (wordCounts (texts.flatten.map _normalize_text))) := rfl
  have hlen : (texts.flatten.map _normalize_text).length ≠ 0 := by
    rw [List.length_map]
    exact fun hc => h (List.length_eq_zero.mp hc)
  have hT := sumVals_wordCounts (texts.flatten.map _normalize_text)
  have hTne : sumVals (wordCounts (texts.flatten.map _normalize_text)) ≠ 0 := by
    rw [hT]
    exact_mod_cast hlen
  refine ⟨?_, ?_, rfl⟩
  · rw [hdist, sumVals_map_div, div_self hTne]
  · intro pr hpr
    rw [hdist] at hpr
    obtain ⟨q, hq, hqe⟩ := List.mem_map.mp hpr
    have hv := mem_wordCounts_val hq
    subst hqe
    simp only
    rw [hv, hT]

/-- Witness for C8 at a concrete input. -/
theorem distribution_normalization_sums_to_one_witness :
    ([["The", "dog"], ["the"]] : List (List String)).flatten ≠ []
    ∧ sumVals (_get_distribution [["The", "dog"], ["the"]] true) = 1 :=
  ⟨by decide, (distribution_normalization_sums_to_one [["The", "dog"], ["the"]]
    (by decide)).1⟩

/-- Counter lookup of a non-negative distribution is non-negative. -/
theorem getQ_nonneg {q : List (String × ℚ)} (hq : ∀ pr ∈ q, 0 ≤ pr.2) (w : String) :
    0 ≤ getQ q w := by
  induction q with
  | nil => simp [getQ, getVal?]
  | cons a t ih =>
    by_cases h : a.1 = w
    · have := hq a (List.mem_cons_self a t)
      simp [getQ, getVal?, h, this]
    · simp only [getQ, getVal?, if_neg h] at ih ⊢
      exact ih fun pr hpr => hq pr (List.mem_cons_of_mem a hpr)

/-- One unfolding step of `_get_kl_divergence`. -/
theorem kl_cons (pr : String × ℚ) (t q : List (String × ℚ)) :
    _get_kl_divergence (pr :: t) q =
      if getQ q pr.1 = 0 then .error .divByZero
      else if pr.2 / getQ q pr.1 ≤ 0 then .error .logDomain
      else match _get_kl_divergence t q with
        | .ok ts => .ok ((pr.2, getQ q pr.1) :: ts)
        | .error e => .error e := rfl

/-- One term of the KL total. -/
theorem klReal_cons (a : ℚ × ℚ) (ts : List (ℚ × ℚ)) :
    klReal (a :: ts) = (a.1 : ℝ) * Real.log ((a.1 : ℝ) / (a.2 : ℝ)) + klReal ts := by
  simp [klReal]

/-- Claim C4: over non-negative distributions, `_get_kl_divergence` fails with
a division-or-domain error exactly when some word of `P` has a zero `Q`-lookup
(in particular when it is absent from `Q`) or a zero `P`-value; on success the
total is `Σ_{w in P} P[w] * ln(P[w] / Q[w])`, a sum over exactly the entries
of `P`. -/
theorem kl_divergence_failure_characterization (p q : List (String × ℚ))
    (hp : ∀ pr ∈ p, 0 ≤ pr.2) (hq : ∀ pr ∈ q, 0 ≤ pr.2) :
    ((∃ e, _get_kl_divergence p q = .error e) ↔ ∃ pr ∈ p, getQ q pr.1 = 0 ∨ pr.2 = 0)
    ∧ ∀ ts, _get_kl_divergence p q = .ok ts →
        klReal ts = (p.map fun pr =>
          (pr.2 : ℝ) * Real.log ((pr.2 : ℝ) / (getQ q pr.1 : ℝ))).sum := by
  induction p with
  | nil =>
    constructor
    · constructor
      · rintro ⟨e, he⟩
        simp [_get_kl_divergence] at he
      · rintro ⟨pr, hpr, -⟩
        cases hpr
    · intro ts hts
      simp only [_get_kl_divergence] at hts
      cases hts
      simp [klReal]
  | cons pr t ih =>
    have hp' : ∀ x ∈ t, 0 ≤ x.2 := fun x hx => hp x (List.mem_cons_of_mem pr hx)
    have ihm := ih hp'
    by_cases h0 : getQ q pr.1 = 0
    · constructor
      · constructor
        · intro _
          exact ⟨pr, List.mem_cons_self pr t, Or.inl h0⟩
        · intro _
          exact ⟨KLErr.divByZero, by rw [kl_cons, if_pos h0]⟩
      · intro ts hts
        rw [kl_cons, if_pos h0] at hts
        cases hts
    · have hqw : 0 < getQ q pr.1 := lt_of_le_of_ne (getQ_nonneg hq pr.1) (Ne.symm h0)
      by_cases hp0 : pr.2 = 0
      · have hratio : pr.2 / getQ q pr.1 ≤ 0 := by
          rw [hp0]; simp
        constructor
        · constructor
          · intro _
            exact ⟨pr, List.mem_cons_self pr t, Or.inr hp0⟩
          · intro _
            exact ⟨KLErr.logDomain, by rw [kl_cons, if_neg h0, if_pos hratio]⟩
        · intro ts hts
          rw [kl_cons, if_neg h0, if_pos hratio] at hts
          cases hts
      · have hppos : 0 < pr.2 :=
          lt_of_le_of_ne (hp pr (List.mem_cons_self pr t)) (Ne.symm hp0)
        have hratio : ¬pr.2 / getQ q pr.1 ≤ 0 := not_le.mpr (div_pos hppos hqw)
        cases hrec : _get_kl_divergence t q with
        | error e =>
          constructor
          · constructor
            · intro _
              obtain ⟨x, hx, hor⟩ := ihm.1.mp ⟨e, hrec⟩
              exact ⟨x, List.mem_cons_of_mem pr hx, hor⟩
            · intro _
              exact ⟨e, by rw [kl_cons, if_neg h0, if_neg hratio, hrec]⟩
          · intro ts hts
            rw [kl_cons, if_neg h0, if_neg hratio, hrec] at hts
            cases hts
        | ok ts' =>
          constructor
          · constructor
            · rintro ⟨e, he⟩
              rw [kl_cons, if_neg h0, if_neg hratio, hrec] at he
              cases he
            · rintro ⟨x, hx, hor⟩
              rcases List.mem_cons.mp hx with hx | hx
              · subst hx
                rcases hor with hz | hz
                · exact absurd hz h0
                · exact absurd hz hp0
              · obtain ⟨e, he⟩ := ihm.1.mpr ⟨x, hx, hor⟩
                rw [he] at hrec
                cases hrec
          · intro ts hts
            rw [kl_cons, if_neg h0, if_neg hratio, hrec] at hts
            cases hts
            rw [klReal_cons, List.map_cons, List.sum_cons, ihm.2 ts' hrec]

/-- Witness for C4 at a concrete pair of distributions. -/
theorem kl_divergence_failure_characterization_witness :
    ((∃ e, _get_kl_divergence [("a", (1 : ℚ))] [("a", (2 : ℚ))] = .error e)
      ↔ ∃ pr ∈ [("a", (1 : ℚ))], getQ [("a", (2 : ℚ))] pr.1 = 0 ∨ pr.2 = 0)
    ∧ ∀ ts, _get_kl_divergence [("a", (1 : ℚ))] [("a", (2 : ℚ))] = .ok ts →
        klReal ts = ([("a", (1 : ℚ))].map fun pr =>
          (pr.2 : ℝ) * Real.log ((pr.2 : ℝ) / (getQ [("a", (2 : ℚ))] pr.1 : ℝ))).sum :=
  kl_divergence_failure_characterization _ _ (by decide) (by decide)

/-- When every `P`-entry looks itself up in `Q` with a positive value, the
divergence succeeds and records each value against itself. -/
theorem kl_ok_of_pointwise (p q : List (String × ℚ))
    (h : ∀ pr ∈ p, getQ q pr.1 = pr.2 ∧ 0 < pr.2) :
    _get_kl_divergence p q = .ok (p.map fun pr => (pr.2, pr.2)) := by
  induction p with
  | nil => rfl
  | cons pr t ih =>
    obtain ⟨hlook, hpos⟩ := h pr (List.mem_cons_self pr t)
    have h0 : ¬getQ q pr.1 = 0 := by rw [hlook]; exact ne_of_gt hpos
    have hratio : ¬pr.2 / getQ q pr.1 ≤ 0 := by
      rw [hlook, div_self (ne_of_gt hpos)]
      norm_num
    rw [kl_cons, if_neg h0, if_neg hratio,
      ih fun x hx => h x (List.mem_cons_of_mem pr hx), hlook]
    rfl

/-- Claim C6: for a non-degenerate distribution `P` (non-empty, duplicate-free
keys, every stored value strictly positive), `D(P || P)` succeeds and its
total is exactly 0. -/
theorem kl_self_divergence_zero (p : List (String × ℚ))
    (hnd : (p.map Prod.fst).Nodup) (hpos : ∀ pr ∈ p, 0 < pr.2) (_hne : p ≠ []) :
    ∃ ts, _get_kl_divergence p p = .ok ts ∧ klReal ts = 0 := by
  refine ⟨p.map fun pr => (pr.2, pr.2), ?_, ?_⟩
  · exact kl_ok_of_pointwise p p fun pr hpr =>
      ⟨by rw [getQ, getVal?_of_mem_nodup hnd hpr]; rfl, hpos pr hpr⟩
  · rw [klReal]
    apply List.sum_eq_zero
    intro x hx
    simp only [List.map_map, List.mem_map, Function.comp] at hx
    obtain ⟨pr, hpr, hxe⟩ := hx
    have hne2 : ((pr.2 : ℝ)) ≠ 0 := by
      exact_mod_cast ne_of_gt (hpos pr hpr)
    rw [← hxe]
    simp [div_self hne2]

/-- Witness for C6 at a concrete distribution. -/
theorem kl_self_divergence_zero_witness :
    ∃ ts, _get_kl_divergence [("a", (1 : ℚ)), ("b", (2 : ℚ))]
        [("a", (1 : ℚ)), ("b", (2 : ℚ))] = .ok ts ∧ klReal ts = 0 :=
  kl_self_divergence_zero _ (by decide) (by decide) (by decide)

/-- One `Counter` bump over `Nat` adds one to the bumped key only. -/
theorem getN_bumpN (c : List (String × Nat)) (k l : String) :
    getN (bumpN c k) l = getN c l + if l = k then 1 else 0 := by
  induction c with
  | nil =>
    by_cases h : l = k
    · simp [bumpN, getN, getVal?, h]
    · have h' : ¬k = l := fun hh => h hh.symm
      simp [bumpN, getN, getVal?, h, h']
  | cons p t ih =>
    obtain ⟨a, v⟩ := p
    simp only [bumpN]
    by_cases hak : a = k
    · rw [if_pos hak]
      by_cases hla : l = a
      · subst hla; rw [← hak]; simp [getN, getVal?]
      · have h' : ¬a = l := fun hh => hla hh.symm
        rw [← hak]; simp [getN, getVal?, hla, h']
    · rw [if_neg hak]
      by_cases hla : l = a
      · subst hla; simp [getN, getVal?, hak]
      · have h' : ¬a = l := fun hh => hla hh.symm
        simp only [getN, getVal?] at ih ⊢
        simp only [if_neg h']
        exact ih

/-- Tallying one layer's spans adds that layer's per-label span count. -/
theorem getN_foldl_freqStepInner (sps : List Sp) (c : List (String × Nat)) (l : String) :
    getN (sps.foldl freqStepInner c) l
      = getN c l + sps.countP (fun sp => decide (sp.label_ = some l)) := by
  induction sps generalizing c with
  | nil => simp
  | cons sp t ih =>
    simp only [List.foldl_cons, ih, List.countP_cons]
    cases hsp : sp.label_ with
    | none => simp [freqStepInner, hsp]
    | some lab =>
      simp only [freqStepInner, hsp, getN_bumpN]
      by_cases h : lab = l
      · subst h; simp; omega
      · have h' : ¬l = lab := fun hh => h hh.symm
        simp [h, h']

/-- Updating a present key rewrites its value under lookup. -/
theorem getVal?_updateVal_self {κ ν : Type} [DecidableEq κ] {m : List (κ × ν)} {k : κ}
    {v : ν} (f : ν → ν) (h : getVal? m k = some v) :
    getVal? (updateVal m k f) k = some (f v) := by
  induction m with
  | nil => cases h
  | cons p t ih =>
    obtain ⟨a, b⟩ := p
    by_cases hak : a = k
    · rw [getVal?, if_pos hak] at h
      cases h
      simp [updateVal, hak, getVal?]
    · rw [getVal?, if_neg hak] at h
      simp [updateVal, hak, getVal?, ih h]

/-- Updating one key leaves other keys' lookups unchanged. -/
theorem getVal?_updateVal_ne {κ ν : Type} [DecidableEq κ] (m : List (κ × ν)) {k k' : κ}
    (f : ν → ν) (h : k' ≠ k) : getVal? (updateVal m k f) k' = getVal? m k' := by
  induction m with
  | nil => rfl
  | cons p t ih =>
    obtain ⟨a, b⟩ := p
    have hkk' : ¬k = k' := fun hh => h hh.symm
    by_cases hak : a = k
    · subst hak
      simp [updateVal, getVal?, hkk', h]
    · by_cases hak' : a = k'
      · subst hak'
        simp [updateVal, getVal?, hak, h]
      · simp [updateVal, getVal?, hak, hak', ih]

/-- Lookup in an appended table falls through to the right part. -/
theorem getVal?_append {κ ν : Type} [DecidableEq κ] (m m' : List (κ × ν)) (k : κ) :
    getVal? (m ++ m') k
      = match getVal? m k with
        | some v => some v
        | none => getVal? m' k := by
  induction m with
  | nil => simp [getVal?]
  | cons p t ih =>
    obtain ⟨a, b⟩ := p
    by_cases hak : a = k
    · simp [getVal?, hak]
    · simp [getVal?, hak, ih]

/-- `ensureKey` makes the key present with its old value or the default. -/
theorem getVal?_ensureKey_self {κ ν : Type} [DecidableEq κ] (m : List (κ × ν)) (k : κ)
    (v : ν) : getVal? (ensureKey m k v) k = some ((getVal? m k).getD v) := by
  unfold ensureKey
  by_cases hs : (getVal? m k).isSome
  · obtain ⟨w, hw⟩ := Option.isSome_iff_exists.mp hs
    simp [hs, hw]
  · have hn : getVal? m k = none := Option.not_isSome_iff_eq_none.mp hs
    rw [if_neg (by simp [hn]), getVal?_append, hn]
    simp [getVal?]

/-- `ensureKey` leaves other keys' lookups unchanged. -/
theorem getVal?_ensureKey_ne {κ ν : Type} [DecidableEq κ] (m : List (κ × ν)) {k k' : κ}
    (v : ν) (h : k' ≠ k) : getVal? (ensureKey m k v) k' = getVal? m k' := by
  unfold ensureKey
  by_cases hs : (getVal? m k).isSome
  · rw [if_pos hs]
  · have hkk' : ¬k = k' := fun hh => h hh.symm
    rw [if_neg hs, getVal?_append]
    cases hmk : getVal? m k' <;> simp [getVal?, hkk']

/-- One per-layer step of `frequency` adds that layer's span counts. -/
theorem lookupCount_stepFreq (t : List (String × List (String × Nat)))
    (kv : String × List Sp) (k l : String) :
    lookupCount (stepFreq t kv) k l
      = lookupCount t k l
        + if k = kv.1 then kv.2.countP (fun sp => decide (sp.label_ = some l)) else 0 := by
  by_cases hk : k = kv.1
  · have h1 := getVal?_ensureKey_self t kv.1 ([] : List (String × Nat))
    have h2 := getVal?_updateVal_self (fun c => kv.2.foldl freqStepInner c) h1
    rw [if_pos hk, lookupCount, lookupCount, hk, stepFreq, h2]
    simp only [Option.getD_some]
    rw [getN_foldl_freqStepInner]
  · have h1 := getVal?_ensureKey_ne t ([] : List (String × Nat)) hk
    have h2 := getVal?_updateVal_ne (ensureKey t kv.1 [])
      (fun c => kv.2.foldl freqStepInner c) hk
    rw [if_neg hk, lookupCount, lookupCount, stepFreq, h2, h1, Nat.add_zero]

/-- Folding one document's layer entries adds its per-layer span counts. -/
theorem lookupCount_foldl_entries (es : List (String × List Sp))
    (t : List (String × List (String × Nat))) (k l : String) :
    lookupCount (es.foldl stepFreq t) k l
      = lookupCount t k l
        + (es.flatMap fun kv => if kv.1 = k then kv.2 else []).countP
            (fun sp => decide (sp.label_ = some l)) := by
  induction es generalizing t with
  | nil => simp
  | cons kv rest ih =>
    simp only [List.foldl_cons, ih, lookupCount_stepFreq, List.flatMap_cons,
      List.countP_append]
    by_cases hk : k = kv.1
    · rw [if_pos hk, if_pos hk.symm]
      omega
    · have hk' : ¬kv.1 = k := fun hh => hk hh.symm
      rw [if_neg hk, if_neg hk']
      simp

/-- Claim C3: the frequency table maps each layer and label to the exact
number of spans bearing that label in that layer across the whole corpus,
spans with a null label excluded (`countSpans` counts only `label_ = some l`),
and the count is unchanged under any permutation of the corpus's documents. -/
theorem frequency_counts_spans_corpus_wide (docs docs' : List Doc) (key label : String)
    (hperm : docs.Perm docs') :
    lookupCount (frequency docs) key label = countSpans docs key label
    ∧ lookupCount (frequency docs') key label = lookupCount (frequency docs) key label := by
  have main : ∀ (ds : List Doc) (t : List (String × List (String × Nat))),
      lookupCount (ds.foldl (fun t d => d.spans.foldl stepFreq t) t) key label
        = lookupCount t key label + countSpans ds key label := by
    intro ds
    induction ds with
    | nil => intro t; simp [countSpans]
    | cons d rest ih =>
      intro t
      simp only [List.foldl_cons, ih, lookupCount_foldl_entries, countSpans,
        List.flatMap_cons, List.countP_append]
      omega
  have base : ∀ ds : List Doc, lookupCount (frequency ds) key label = countSpans ds key label := by
    intro ds
    have := main ds []
    simpa [frequency, lookupCount, getN, getVal?] using this
  have hcount : countSpans docs key label = countSpans docs' key label := by
    unfold countSpans
    exact (hperm.flatMap_right _).countP_eq _
  exact ⟨base docs, by rw [base docs', ← hcount, base docs]⟩

/-- Witness for C3 on a concrete two-document corpus and its swap. -/
theorem frequency_counts_spans_corpus_wide_witness :
    ([exDocC1, exDocC1two] : List Doc).Perm [exDocC1two, exDocC1]
    ∧ lookupCount (frequency [exDocC1, exDocC1two]) "sc" "DRUG"
        = countSpans [exDocC1, exDocC1two] "sc" "DRUG" :=
  ⟨by decide,
    (frequency_counts_spans_corpus_wide [exDocC1, exDocC1two] [exDocC1two, exDocC1]
      "sc" "DRUG" (by decide)).1⟩

/-- When a metric table's type keys equal a duplicate-free frequency table's
type keys in order, key-matched lookups read off the frequency values
positionally. -/
theorem getQ_key_aligned (td fd : List (String × ℚ))
    (hk : td.map Prod.fst = fd.map Prod.fst) (hnd : (fd.map Prod.fst).Nodup) :
    (td.map fun tv => getQ fd tv.1) = fd.map Prod.snd
    ∧ (td.map fun tv => tv.2 * getQ fd tv.1)
        = ((td.map Prod.snd).zip (fd.map Prod.snd)).map fun p => p.1 * p.2 := by
  induction td generalizing fd with
  | nil =>
    have hfd : fd.map Prod.fst = [] := by simpa using hk.symm
    have : fd = [] := List.map_eq_nil_iff.mp hfd
    subst this
    simp
  | cons tv td' ih =>
    cases fd with
    | nil => cases hk
    | cons fv fd' =>
      simp only [List.map_cons, List.cons.injEq] at hk
      obtain ⟨hhead, htail⟩ := hk
      simp only [List.map_cons, List.nodup_cons] at hnd
      obtain ⟨hnotin, hnd'⟩ := hnd
      have hlook : getQ (fv :: fd') tv.1 = fv.2 := by
        simp [getQ, getVal?, hhead.symm]
      have htne : ∀ x ∈ td', getQ (fv :: fd') x.1 = getQ fd' x.1 := by
        intro x hx
        have hxmem : x.1 ∈ fd'.map Prod.fst := by
          rw [← htail]
          exact List.mem_map_of_mem Prod.fst hx
        have hne : ¬fv.1 = x.1 := fun hh => hnotin (hh ▸ hxmem)
        simp [getQ, getVal?, hne]
      obtain ⟨ih1, ih2⟩ := ih fd' htail hnd'
      constructor
      · simp only [List.map_cons, hlook, List.cons.injEq, true_and]
        rw [List.map_congr_left htne, ih1]
      · simp only [List.map_cons, List.zip_cons_cons, hlook, List.cons.injEq, true_and]
        rw [List.map_congr_left fun x hx => by rw [htne x hx], ih2]

/-- Under key alignment, the positional `np.average` agrees with the
key-matched weighted mean. -/
theorem npAverage_eq_keyWeightedMean (td fd : List (String × ℚ))
    (hk : td.map Prod.fst = fd.map Prod.fst) (hnd : (fd.map Prod.fst).Nodup) :
    npAverage (td.map Prod.snd) (fd.map Prod.snd) = keyWeightedMean td fd := by
  obtain ⟨h1, h2⟩ := getQ_key_aligned td fd hk hnd
  have hlen : (td.map Prod.snd).length = (fd.map Prod.snd).length := by
    have := congrArg List.length hk
    simpa using this
  have hwsum : (td.map fun tv => getQ fd tv.1).sum = (fd.map Prod.snd).sum := by
    rw [h1]
  unfold npAverage keyWeightedMean
  by_cases hz : (fd.map Prod.snd).sum = 0
  · rw [if_neg (by simp [hz]), if_pos (by rw [hwsum, hz])]
  · rw [if_pos ⟨hlen, hz⟩, if_neg (by rw [hwsum]; exact hz), hwsum, h2]

/-- `mapM` over `Option` respects pointwise equality of the mapped
functions. -/
theorem mapM_option_congr {α β : Type} (f g : α → Option β) (l : List α)
    (h : ∀ x ∈ l, f x = g x) : l.mapM f = l.mapM g := by
  induction l with
  | nil => rfl
  | cons a t ih =>
    rw [List.mapM_cons, List.mapM_cons, h a (List.mem_cons_self a t),
      ih fun x hx => h x (List.mem_cons_of_mem a hx)]

/-- Sum of a list zipped with a constant replicated weight. -/
theorem zip_replicate_mul_sum (xs : List ℚ) (w : ℚ) :
    ((xs.zip (List.replicate xs.length w)).map fun p => p.1 * p.2).sum = xs.sum * w := by
  induction xs with
  | nil => simp
  | cons x t ih =>
    simp only [List.length_cons, List.replicate_succ, List.zip_cons_cons, List.map_cons,
      List.sum_cons, ih, List.sum_cons]
    ring

/-- Claim C9 amended: `weighted_average` weights each layer's metric values by
the frequency values taken positionally (`list(dict.values())` on both
tables).  When each layer's frequency table lists exactly the metric table's
type keys in the same order (the situation produced by deriving both tables
from the same corpus), this equals the key-matched frequency-weighted mean;
and with all-equal non-zero frequencies `np.average` reduces to the
unweighted arithmetic mean. -/
theorem weighted_average_positional_weights (m f : List (String × List (String × ℚ)))
    (h : alignedB m f = true) :
    weighted_average m f = spec_weighted_average m f
    ∧ ∀ (xs : List ℚ) (w : ℚ) (n : Nat), w ≠ 0 → xs.length = n → 0 < n →
        npAverage xs (List.replicate n w) = some (xs.sum / n) := by
  constructor
  · unfold weighted_average spec_weighted_average
    apply mapM_option_congr
    intro kv hkv
    have hkv' := (List.all_eq_true.mp h) kv hkv
    cases hfd : getVal? f kv.1 with
    | none =>
      rw [hfd] at hkv'
      simp at hkv'
    | some fd =>
      rw [hfd] at hkv'
      simp only [Bool.and_eq_true, decide_eq_true_eq] at hkv'
      obtain ⟨⟨hkeys, hnd⟩, -⟩ := hkv'
      simp only [hfd, Option.bind_eq_bind, Option.some_bind,
        npAverage_eq_keyWeightedMean kv.2 fd hkeys.symm hnd]
  · intro xs w n hw hlen hpos
    subst hlen
    have hsum : (List.replicate xs.length w).sum = (xs.length : ℚ) * w := by
      rw [List.sum_replicate]
      exact nsmul_eq_mul xs.length w
    have hne : (List.replicate xs.length w).sum ≠ 0 := by
      rw [hsum]
      exact mul_ne_zero (by exact_mod_cast Nat.pos_iff_ne_zero.mp hpos) hw
    unfold npAverage
    rw [if_pos ⟨(List.length_replicate xs.length w).symm, hne⟩, zip_replicate_mul_sum,
      hsum, mul_div_mul_right _ _ hw]

/-- Witness for the amended C9 on concrete aligned tables. -/
theorem weighted_average_positional_weights_witness :
    alignedB [("sc", [("A", (1 : ℚ)), ("B", 3)])] [("sc", [("A", (2 : ℚ)), ("B", 2)])] = true
    ∧ weighted_average [("sc", [("A", (1 : ℚ)), ("B", 3)])]
        [("sc", [("A", (2 : ℚ)), ("B", 2)])]
      = spec_weighted_average [("sc", [("A", (1 : ℚ)), ("B", 3)])]
        [("sc", [("A", (2 : ℚ)), ("B", 2)])] := by
  have halign : alignedB [("sc", [("A", (1 : ℚ)), ("B", 3)])]
      [("sc", [("A", (2 : ℚ)), ("B", 2)])] = true := by
    simp [alignedB, getVal?]
  exact ⟨halign,
    (weighted_average_positional_weights _ _ halign).1⟩

theorem except_bind_ok {ε α β : Type} (a : α) (f : α → Except ε β) :
    (Except.ok a >>= f : Except ε β) = f a := rfl

theorem except_bind_error {ε α β : Type} (e : ε) (f : α → Except ε β) :
    ((Except.error e : Except ε α) >>= f : Except ε β) = .error e := rfl

theorem except_map_ok {ε α β : Type} (f : α → β) (a : α) :
    ((Except.ok a : Except ε α).map f) = .ok (f a) := rfl

theorem except_map_error {ε α β : Type} (f : α → β) (e : ε) :
    ((Except.error e : Except ε α).map f) = .error e := rfl

/-- A key that occurs in a table is found by lookup. -/
theorem getVal?_isSome_of_mem_keys {κ ν : Type} [DecidableEq κ] {m : List (κ × ν)}
    {k : κ} (h : k ∈ m.map Prod.fst) : (getVal? m k).isSome := by
  induction m with
  | nil => cases h
  | cons p t ih =>
    obtain ⟨a, b⟩ := p
    by_cases hak : a = k
    · simp [getVal?, hak]
    · rcases List.mem_cons.mp h with h1 | h1
      · exact absurd h1.symm hak
      · simp only [getVal?, if_neg hak]
        exact ih h1

/-- A key found by lookup occurs in the table. -/
theorem mem_keys_of_getVal?_isSome {κ ν : Type} [DecidableEq κ] {m : List (κ × ν)}
    {k : κ} (h : (getVal? m k).isSome) : k ∈ m.map Prod.fst := by
  induction m with
  | nil => simp [getVal?] at h
  | cons p t ih =>
    obtain ⟨a, b⟩ := p
    by_cases hak : a = k
    · simp [hak]
    · simp only [getVal?, if_neg hak] at h
      simp [ih h]

/-- The entry found by lookup is a member of the table. -/
theorem getVal?_mem {κ ν : Type} [DecidableEq κ] {m : List (κ × ν)} {k : κ} {v : ν}
    (h : getVal? m k = some v) : (k, v) ∈ m := by
  induction m with
  | nil => cases h
  | cons p t ih =>
    obtain ⟨a, b⟩ := p
    by_cases hak : a = k
    · rw [getVal?, if_pos hak] at h
      cases h
      exact hak ▸ List.mem_cons_self _ _
    · rw [getVal?, if_neg hak] at h
      exact List.mem_cons_of_mem _ (ih h)

/-- `mapM` over `Except` succeeds when every element does. -/
theorem mapM_except_ok_of_forall {α β ε : Type} (f : α → Except ε β) (l : List α)
    (h : ∀ x ∈ l, ∃ y, f x = .ok y) : ∃ ys, l.mapM f = .ok ys := by
  induction l with
  | nil => exact ⟨[], rfl⟩
  | cons a t ih =>
    obtain ⟨y, hy⟩ := h a (List.mem_cons_self a t)
    obtain ⟨ys, hys⟩ := ih fun x hx => h x (List.mem_cons_of_mem a hx)
    exact ⟨y :: ys, by rw [List.mapM_cons, hy, except_bind_ok, hys, except_bind_ok]; rfl⟩

/-- `mapM` over `Except Err` fails with a `keyError` when every element
yields ok-or-`keyError` and some element is not ok. -/
theorem mapM_except_keyError {α β : Type} (f : α → Except Err β) (l : List α)
    (hall : ∀ x ∈ l, (∃ y, f x = .ok y) ∨ ∃ j, f x = .error (.keyError j))
    (hbad : ∃ x ∈ l, ∀ y, f x ≠ .ok y) :
    ∃ j, l.mapM f = .error (.keyError j) := by
  induction l with
  | nil =>
    obtain ⟨x, hx, -⟩ := hbad
    cases hx
  | cons a t ih =>
    rcases hall a (List.mem_cons_self a t) with ⟨y, hy⟩ | ⟨j, hj⟩
    · obtain ⟨x, hx, hxne⟩ := hbad
      have hxt : x ∈ t := by
        rcases List.mem_cons.mp hx with h1 | h1
        · subst h1
          exact absurd hy (hxne y)
        · exact h1
      obtain ⟨j, hj⟩ := ih (fun x hx => hall x (List.mem_cons_of_mem a hx)) ⟨x, hxt, hxne⟩
      exact ⟨j, by rw [List.mapM_cons, hy, except_bind_ok, hj, except_bind_error]⟩
    · exact ⟨j, by rw [List.mapM_cons, hj, except_bind_error]⟩

/-- `docItems` never fails: every key it looks up comes from the document's
own key list. -/
theorem docItems_ok (d : Doc) : ∃ items, docItems d = .ok items := by
  apply mapM_except_ok_of_forall
  intro k hk
  have hs := getVal?_isSome_of_mem_keys hk
  obtain ⟨g, hg⟩ := Option.isSome_iff_exists.mp hs
  exact ⟨(k, g), by rw [docSpans, hg, except_map_ok]⟩

/-- A fold that consumes `docItems` of each document never fails. -/
theorem foldlM_docItems_ok {β : Type} (G : β → List (String × List Sp) → β) :
    ∀ (docs : List Doc) (init : β),
      ∃ t, docs.foldlM (fun t d => (docItems d).map (G t)) init = .ok t := by
  intro docs
  induction docs with
  | nil => exact fun init => ⟨init, rfl⟩
  | cons d rest ih =>
    intro init
    obtain ⟨items, hitems⟩ := docItems_ok d
    obtain ⟨t, ht⟩ := ih (G init items)
    refine ⟨t, ?_⟩
    rw [List.foldlM_cons, hitems, except_map_ok, except_bind_ok, ht]

/-- A fold of per-document `doc.spans[key]` lookups fails with
`KeyError(key)` as soon as some document lacks the layer. -/
theorem foldlM_docSpans_error {β : Type} (G : β → Doc → List Sp → β)
    (docs : List Doc) (key : String) (h : ∃ d ∈ docs, getVal? d.spans key = none) :
    ∀ init : β,
      docs.foldlM (fun b d => (docSpans d key).map (G b d)) init
        = .error (.keyError key) := by
  induction docs with
  | nil =>
    obtain ⟨d, hd, -⟩ := h
    cases hd
  | cons d rest ih =>
    intro init
    rw [List.foldlM_cons]
    cases hg : getVal? d.spans key with
    | none =>
      rw [docSpans, hg, except_map_error, except_bind_error]
    | some g =>
      rw [docSpans, hg, except_map_ok, except_bind_ok]
      obtain ⟨d', hd', hd'n⟩ := h
      have hd't : d' ∈ rest := by
        rcases List.mem_cons.mp hd' with h1 | h1
        · subst h1
          rw [hg] at hd'n
          cases hd'n
        · exact h1
      exact ih ⟨d', hd't, hd'n⟩ _

/-- A fold of per-document `doc.spans[key]` lookups succeeds when every
document has the layer. -/
theorem foldlM_docSpans_ok {β : Type} (G : β → Doc → List Sp → β)
    (docs : List Doc) (key : String)
    (h : ∀ d ∈ docs, (getVal? d.spans key).isSome) :
    ∀ init : β,
      ∃ r, docs.foldlM (fun b d => (docSpans d key).map (G b d)) init = .ok r := by
  induction docs with
  | nil => exact fun init => ⟨init, rfl⟩
  | cons d rest ih =>
    intro init
    obtain ⟨g, hg⟩ := Option.isSome_iff_exists.mp (h d (List.mem_cons_self d rest))
    obtain ⟨r, hr⟩ := ih (fun d' hd' => h d' (List.mem_cons_of_mem d hd')) (G init d g)
    refine ⟨r, ?_⟩
    rw [List.foldlM_cons, docSpans, hg, except_map_ok, except_bind_ok, hr]

/-- Entries after an update are old entries or the updated entry. -/
theorem mem_updateVal {κ ν : Type} [DecidableEq κ] {m : List (κ × ν)} {k : κ} {f : ν → ν}
    {x : κ × ν} (h : x ∈ updateVal m k f) :
    x ∈ m ∨ ∃ v, (k, v) ∈ m ∧ x = (k, f v) := by
  induction m with
  | nil => cases h
  | cons p t ih =>
    obtain ⟨a, b⟩ := p
    by_cases hak : a = k
    · rw [updateVal, if_pos hak] at h
      rcases List.mem_cons.mp h with h1 | h1
      · subst hak
        exact Or.inr ⟨b, List.mem_cons_self _ _, h1⟩
      · exact Or.inl (List.mem_cons_of_mem _ h1)
    · rw [updateVal, if_neg hak] at h
      rcases List.mem_cons.mp h with h1 | h1
      · exact Or.inl (h1 ▸ List.mem_cons_self _ _)
      · rcases ih h1 with h2 | ⟨v, hv, he⟩
        · exact Or.inl (List.mem_cons_of_mem _ h2)
        · exact Or.inr ⟨v, List.mem_cons_of_mem _ hv, he⟩

/-- A span's tokens are tokens of its document. -/
theorem mem_spanTokens {d : Doc} {sp : Sp} {w : String} (h : w ∈ spanTokens d sp) :
    w ∈ d.tokens :=
  List.mem_of_mem_drop (List.mem_of_mem_take h)

/-- The inner per-document fold of `_get_all_spans_in_key` only accumulates
tokens of that document. -/
theorem spans_inner_fold_inv (P : String → Prop) (d : Doc)
    (hd : ∀ w ∈ d.tokens, P w) (sps : List Sp) :
    ∀ acc, (∀ g ∈ acc, ∀ tl ∈ g.2, ∀ w ∈ tl, P w) →
      ∀ g ∈ sps.foldl (fun sps sp =>
          if (getVal? sps sp.label_).isSome then
            updateVal sps sp.label_ (fun v => v ++ [spanTokens d sp])
          else sps ++ [(sp.label_, [])]) acc,
        ∀ tl ∈ g.2, ∀ w ∈ tl, P w := by
  induction sps with
  | nil => exact fun acc hacc => hacc
  | cons sp rest ih =>
    intro acc hacc
    rw [List.foldl_cons]
    apply ih
    intro g hg tl htl w hw
    by_cases hs : (getVal? acc sp.label_).isSome
    · rw [if_pos hs] at hg
      rcases mem_updateVal hg with h1 | ⟨v, hv, he⟩
      · exact hacc g h1 tl htl w hw
      · have htl' : tl ∈ v ++ [spanTokens d sp] := by
          rw [he] at htl
          exact htl
        rcases List.mem_append.mp htl' with h2 | h2
        · exact hacc (sp.label_, v) hv tl h2 w hw
        · have : tl = spanTokens d sp := List.mem_singleton.mp h2
          subst this
          exact hd w (mem_spanTokens hw)
    · rw [if_neg hs] at hg
      rcases List.mem_append.mp hg with h1 | h1
      · exact hacc g h1 tl htl w hw
      · have : g = (sp.label_, ([] : List (List String))) := List.mem_singleton.mp h1
        rw [this] at htl
        cases htl

/-- Every token list accumulated by `_get_all_spans_in_key` comes from some
corpus document. -/
theorem spans_groups_tokens (P : String → Prop) :
    ∀ (docs : List Doc), (∀ d ∈ docs, ∀ w ∈ d.tokens, P w) → ∀ (key : String)
      (init : List (Option String × List (List String))),
      (∀ g ∈ init, ∀ tl ∈ g.2, ∀ w ∈ tl, P w) →
      ∀ out, docs.foldlM (fun sps d => (docSpans d key).map (fun group =>
          group.foldl (fun sps sp =>
            if (getVal? sps sp.label_).isSome then
              updateVal sps sp.label_ (fun v => v ++ [spanTokens d sp])
            else sps ++ [(sp.label_, [])]) sps)) init = .ok out →
        ∀ g ∈ out, ∀ tl ∈ g.2, ∀ w ∈ tl, P w := by
  intro docs
  induction docs with
  | nil =>
    intro _ key init hinit out hout
    cases hout
    exact hinit
  | cons d rest ih =>
    intro hdocs key init hinit out hout
    rw [List.foldlM_cons] at hout
    cases hg : getVal? d.spans key with
    | none =>
      rw [docSpans, hg, except_map_error, except_bind_error] at hout
      cases hout
    | some group =>
      rw [docSpans, hg, except_map_ok, except_bind_ok] at hout
      exact ih (fun d' hd' => hdocs d' (List.mem_cons_of_mem d hd')) key _
        (spans_inner_fold_inv P d (hdocs d (List.mem_cons_self d rest)) group init hinit)
        out hout

/-- Provenance for `_get_all_spans_in_keyE`: recorded span tokens are corpus
tokens. -/
theorem spans_group_tokens_sub {docs : List Doc} {key : String}
    {out : List (Option String × List (List String))}
    (hok : _get_all_spans_in_keyE docs key = .ok out) :
    ∀ g ∈ out, ∀ tl ∈ g.2, ∀ w ∈ tl, ∃ d ∈ docs, w ∈ d.tokens :=
  spans_groups_tokens (fun w => ∃ d ∈ docs, w ∈ d.tokens) docs
    (fun d hd w hw => ⟨d, hd, hw⟩) key [] (by simp) out hok

/-- Updating the start-boundary list of one label preserves the token
invariant when the appended token satisfies it. -/
theorem bounds_update_fst (P : String → Prop)
    (bd : List (Option String × (List String × List String)))
    (hbd : ∀ g ∈ bd, ∀ w ∈ g.2.1 ++ g.2.2, P w) (l : Option String) (t0 : String)
    (hP : P t0) :
    ∀ g ∈ updateVal bd l (fun v => (v.1 ++ [t0], v.2)), ∀ w ∈ g.2.1 ++ g.2.2, P w := by
  intro g hg w hw
  rcases mem_updateVal hg with h1 | ⟨v, hv, he⟩
  · exact hbd g h1 w hw
  · rw [he] at hw
    simp only [List.append_assoc, List.mem_append, List.mem_singleton] at hw
    rcases hw with h2 | h2 | h2
    · exact hbd (l, v) hv w (List.mem_append.mpr (Or.inl h2))
    · exact h2 ▸ hP
    · exact hbd (l, v) hv w (List.mem_append.mpr (Or.inr h2))

/-- Updating the end-boundary list of one label preserves the token
invariant when the appended token satisfies it. -/
theorem bounds_update_snd (P : String → Prop)
    (bd : List (Option String × (List String × List String)))
    (hbd : ∀ g ∈ bd, ∀ w ∈ g.2.1 ++ g.2.2, P w) (l : Option String) (t0 : String)
    (hP : P t0) :
    ∀ g ∈ updateVal bd l (fun v => (v.1, v.2 ++ [t0])), ∀ w ∈ g.2.1 ++ g.2.2, P w := by
  intro g hg w hw
  rcases mem_updateVal hg with h1 | ⟨v, hv, he⟩
  · exact hbd g h1 w hw
  · rw [he] at hw
    simp only [List.mem_append, List.mem_singleton] at hw
    rcases hw with h2 | h2 | h2
    · exact hbd (l, v) hv w (List.mem_append.mpr (Or.inl h2))
    · exact hbd (l, v) hv w (List.mem_append.mpr (Or.inr h2))
    · exact h2 ▸ hP

/-- An indexed token (with an in-bounds index) is a token of the document. -/
theorem getD_mem_tokens {l : List String} {i : Nat} (h : i < l.length) :
    l.getD i ("") ∈ l := by
  rw [List.getD_eq_getElem l _ h]
  exact List.getElem_mem h

/-- One `boundaryStep` preserves the token invariant for in-bounds spans. -/
theorem bounds_step_inv (P : String → Prop) (d : Doc) (hd : ∀ w ∈ d.tokens, P w)
    (sp : Sp) (hsp : sp.start ≤ sp.stop ∧ sp.stop ≤ d.tokens.length)
    (bd : List (Option String × (List String × List String)))
    (hbd : ∀ g ∈ bd, ∀ w ∈ g.2.1 ++ g.2.2, P w) :
    ∀ g ∈ boundaryStep d bd sp, ∀ w ∈ g.2.1 ++ g.2.2, P w := by
  unfold boundaryStep
  by_cases hs : (getVal? bd sp.label_).isSome
  · rw [if_pos hs]
    have hbd1 : ∀ g ∈ (if 1 ≤ sp.start then
        updateVal bd sp.label_ (fun v => (v.1 ++ [d.tokens.getD (sp.start - 1) ""], v.2))
        else bd), ∀ w ∈ g.2.1 ++ g.2.2, P w := by
      by_cases h1 : 1 ≤ sp.start
      · rw [if_pos h1]
        refine bounds_update_fst P bd hbd sp.label_ _ ?_
        have hidx : sp.start - 1 < d.tokens.length := by omega
        exact hd _ (getD_mem_tokens hidx)
      · rw [if_neg h1]
        exact hbd
    by_cases h2 : sp.stop + 1 < d.tokens.length
    · rw [if_pos h2]
      refine bounds_update_snd P _ hbd1 sp.label_ _ ?_
      exact hd _ (getD_mem_tokens h2)
    · rw [if_neg h2]
      exact hbd1
  · rw [if_neg hs]
    intro g hg w hw
    rcases List.mem_append.mp hg with h1 | h1
    · exact hbd g h1 w hw
    · have : g = (sp.label_, (([] : List String), ([] : List String))) :=
        List.mem_singleton.mp h1
      rw [this] at hw
      cases hw

/-- The inner per-document fold of `_get_all_boundaries_in_key` only
accumulates tokens of that document. -/
theorem bounds_inner_fold_inv (P : String → Prop) (d : Doc)
    (hd : ∀ w ∈ d.tokens, P w) (sps : List Sp)
    (hsp : ∀ sp ∈ sps, sp.start ≤ sp.stop ∧ sp.stop ≤ d.tokens.length) :
    ∀ acc, (∀ g ∈ acc, ∀ w ∈ g.2.1 ++ g.2.2, P w) →
      ∀ g ∈ sps.foldl (boundaryStep d) acc, ∀ w ∈ g.2.1 ++ g.2.2, P w := by
  induction sps with
  | nil => exact fun acc hacc => hacc
  | cons sp rest ih =>
    intro acc hacc
    rw [List.foldl_cons]
    exact ih (fun sp' hsp' => hsp sp' (List.mem_cons_of_mem sp hsp'))
      _ (bounds_step_inv P d hd sp (hsp sp (List.mem_cons_self sp rest)) acc hacc)

/-- Every boundary token accumulated by `_get_all_boundaries_in_key` comes
from some corpus document (for a corpus whose spans are in bounds). -/
theorem bounds_groups_tokens (P : String → Prop) :
    ∀ (docs : List Doc), (∀ d ∈ docs, ∀ w ∈ d.tokens, P w) →
      (∀ d ∈ docs, ∀ kv ∈ d.spans, ∀ sp ∈ kv.2,
        sp.start ≤ sp.stop ∧ sp.stop ≤ d.tokens.length) →
      ∀ (key : String) (init : List (Option String × (List String × List String))),
      (∀ g ∈ init, ∀ w ∈ g.2.1 ++ g.2.2, P w) →
      ∀ out, docs.foldlM (fun bd d =>
          (docSpans d key).map (fun group => group.foldl (boundaryStep d) bd)) init
        = .ok out →
        ∀ g ∈ out, ∀ w ∈ g.2.1 ++ g.2.2, P w := by
  intro docs
  induction docs with
  | nil =>
    intro _ _ key init hinit out hout
    cases hout
    exact hinit
  | cons d rest ih =>
    intro hdocs hwf key init hinit out hout
    rw [List.foldlM_cons] at hout
    cases hg : getVal? d.spans key with
    | none =>
      rw [docSpans, hg, except_map_error, except_bind_error] at hout
      cases hout
    | some group =>
      rw [docSpans, hg, except_map_ok, except_bind_ok] at hout
      have hgrp : ∀ sp ∈ group, sp.start ≤ sp.stop ∧ sp.stop ≤ d.tokens.length :=
        fun sp hsp =>
          hwf d (List.mem_cons_self d rest) (key, group) (getVal?_mem hg) sp hsp
      exact ih (fun d' hd' => hdocs d' (List.mem_cons_of_mem d hd'))
        (fun d' hd' => hwf d' (List.mem_cons_of_mem d hd')) key _
        (bounds_inner_fold_inv P d (hdocs d (List.mem_cons_self d rest)) group hgrp
          init hinit)
        out hout

/-- Provenance for `_get_all_boundaries_in_keyE`: recorded boundary tokens
are corpus tokens. -/
theorem bounds_group_tokens_sub {docs : List Doc} {key : String}
    {out : List (Option String × (List String × List String))}
    (hwf : corpusWF docs) (hok : _get_all_boundaries_in_keyE docs key = .ok out) :
    ∀ g ∈ out, ∀ w ∈ g.2.1 ++ g.2.2, ∃ d ∈ docs, w ∈ d.tokens :=
  bounds_groups_tokens (fun w => ∃ d ∈ docs, w ∈ d.tokens) docs
    (fun d hd w hw => ⟨d, hd, hw⟩) hwf key [] (by simp) out hok

/-- Lookup in a value-wise divided table divides the lookup. -/
theorem getQ_map_div (m : List (String × ℚ)) (T : ℚ) (w : String) :
    getQ (m.map fun p => (p.1, p.2 / T)) w = getQ m w / T := by
  induction m with
  | nil => simp [getQ, getVal?]
  | cons p t ih =>
    obtain ⟨a, b⟩ := p
    by_cases haw : a = w
    · simp [getQ, getVal?, haw]
    · simp only [List.map_cons, getQ, getVal?, if_neg haw] at ih ⊢
      exact ih

/-- A key of a bumped counter is an old key or the bumped word. -/
theorem mem_keys_bumpQ {m : List (String × ℚ)} {k w : String}
    (h : w ∈ (bumpQ m k).map Prod.fst) : w ∈ m.map Prod.fst ∨ w = k := by
  rw [bumpQ_keys] at h
  by_cases hk : k ∈ m.map Prod.fst
  · rw [if_pos hk] at h
    exact Or.inl h
  · rw [if_neg hk] at h
    rcases List.mem_append.mp h with h1 | h1
    · exact Or.inl h1
    · exact Or.inr (List.mem_singleton.mp h1)

/-- A key of a word-count table is a tallied word. -/
theorem mem_keys_wordCounts {l : List String} {w : String}
    (h : w ∈ (wordCounts l).map Prod.fst) : w ∈ l := by
  have main : ∀ (l : List String) (m : List (String × ℚ)),
      w ∈ ((l.foldl bumpQ m).map Prod.fst) → w ∈ m.map Prod.fst ∨ w ∈ l := by
    intro l
    induction l with
    | nil => exact fun m hm => Or.inl hm
    | cons a t ih =>
      intro m hm
      rcases ih (bumpQ m a) hm with h1 | h1
      · rcases mem_keys_bumpQ h1 with h2 | h2
        · exact Or.inl h2
        · exact Or.inr (h2 ▸ List.mem_cons_self a t)
      · exact Or.inr (List.mem_cons_of_mem a h1)
  rcases main l [] h with h1 | h1
  · cases h1
  · exact h1

/-- Every entry of a normalized distribution has a positive value and a word
drawn from the (normalized) input tokens. -/
theorem dist_entries_pos_mem (texts : List (List String)) :
    ∀ pr ∈ _get_distribution texts true,
      0 < pr.2 ∧ pr.1 ∈ (texts.flatten.map _normalize_text) := by
  intro pr hpr
  have hdist : _get_distribution texts true
      = (wordCounts (texts.flatten.map _normalize_text)).map
          fun p => (p.1, p.2 / sumVals (wordCounts (texts.flatten.map _normalize_text))) := rfl
  rw [hdist] at hpr
  obtain ⟨q, hq, hqe⟩ := List.mem_map.mp hpr
  have hv := mem_wordCounts_val hq
  have hmem : q.1 ∈ texts.flatten.map _normalize_text :=
    mem_keys_wordCounts (List.mem_map_of_mem Prod.fst hq)
  have hcount : 0 < (texts.flatten.map _normalize_text).count q.1 :=
    List.count_pos_iff.mpr hmem
  have hlen : 0 < (texts.flatten.map _normalize_text).length :=
    List.length_pos.mpr (List.ne_nil_of_mem hmem)
  have hT : sumVals (wordCounts (texts.flatten.map _normalize_text))
      = ((texts.flatten.map _normalize_text).length : ℚ) := by
    simpa using sumVals_wordCounts (texts.flatten.map _normalize_text)
  subst hqe
  refine ⟨?_, hmem⟩
  simp only
  rw [hv, hT]
  apply div_pos
  · exact_mod_cast hcount
  · exact_mod_cast hlen

/-- Lookup in the corpus distribution is positive on corpus words. -/
theorem getQ_p_corpus_pos {docs : List Doc} {w : String}
    (h : w ∈ ((docs.map Doc.tokens).flatten.map _normalize_text)) :
    0 < getQ (p_corpus docs) w := by
  have hdist : p_corpus docs
      = (wordCounts ((docs.map Doc.tokens).flatten.map _normalize_text)).map
          fun p => (p.1, p.2 / sumVals
            (wordCounts ((docs.map Doc.tokens).flatten.map _normalize_text))) := rfl
  rw [hdist, getQ_map_div, getQ_wordCounts]
  have hcount : 0 < ((docs.map Doc.tokens).flatten.map _normalize_text).count w :=
    List.count_pos_iff.mpr h
  have hlen : 0 < ((docs.map Doc.tokens).flatten.map _normalize_text).length :=
    List.length_pos.mpr (List.ne_nil_of_mem h)
  have hT : sumVals (wordCounts ((docs.map Doc.tokens).flatten.map _normalize_text))
      = (((docs.map Doc.tokens).flatten.map _normalize_text).length : ℚ) := by
    simpa using sumVals_wordCounts ((docs.map Doc.tokens).flatten.map _normalize_text)
  rw [hT]
  apply div_pos
  · exact_mod_cast hcount
  · exact_mod_cast hlen

/-- The divergence succeeds whenever every `P`-entry is positive and looks up
a positive `Q`-value. -/
theorem kl_ok_of_pos (p q : List (String × ℚ))
    (h : ∀ pr ∈ p, 0 < pr.2 ∧ 0 < getQ q pr.1) :
    ∃ ts, _get_kl_divergence p q = .ok ts := by
  induction p with
  | nil => exact ⟨[], rfl⟩
  | cons pr t ih =>
    obtain ⟨hpv, hqv⟩ := h pr (List.mem_cons_self pr t)
    obtain ⟨ts, hts⟩ := ih fun x hx => h x (List.mem_cons_of_mem pr hx)
    refine ⟨(pr.2, getQ q pr.1) :: ts, ?_⟩
    rw [kl_cons, if_neg (ne_of_gt hqv), if_neg (not_le.mpr (div_pos hpv hqv)), hts]

/-- Flattening singletons is the identity (unigram mode of
`_get_distribution`). -/
theorem flatten_map_singleton {α : Type} (l : List α) :
    (l.map fun a => [a]).flatten = l := by
  induction l with
  | nil => rfl
  | cons a t ih => simp [ih]

theorem liftKL_ok {α : Type} (a : α) : liftKL (.ok a) = (.ok a : Except Err α) := rfl

/-- `_get_all_spans_in_keyE` raises `KeyError(key)` when a document lacks the
layer. -/
theorem spans_key_error (docs : List Doc) (key : String)
    (h : ∃ d ∈ docs, getVal? d.spans key = none) :
    _get_all_spans_in_keyE docs key = .error (.keyError key) :=
  foldlM_docSpans_error _ docs key h []

/-- `_get_all_spans_in_keyE` succeeds when every document has the layer. -/
theorem spans_key_ok (docs : List Doc) (key : String)
    (h : ∀ d ∈ docs, (getVal? d.spans key).isSome) :
    ∃ r, _get_all_spans_in_keyE docs key = .ok r :=
  foldlM_docSpans_ok _ docs key h []

/-- `_get_all_boundaries_in_keyE` raises `KeyError(key)` when a document
lacks the layer. -/
theorem bounds_key_error (docs : List Doc) (key : String)
    (h : ∃ d ∈ docs, getVal? d.spans key = none) :
    _get_all_boundaries_in_keyE docs key = .error (.keyError key) :=
  foldlM_docSpans_error _ docs key h []

/-- `_get_all_boundaries_in_keyE` succeeds when every document has the
layer. -/
theorem bounds_key_ok (docs : List Doc) (key : String)
    (h : ∀ d ∈ docs, (getVal? d.spans key).isSome) :
    ∃ r, _get_all_boundaries_in_keyE docs key = .ok r :=
  foldlM_docSpans_ok _ docs key h []

/-- Each per-key span-distinctiveness computation either succeeds or fails
with a `KeyError`: the KL step itself cannot fail, because span tokens are
corpus tokens, so the corpus distribution is positive on all their words. -/
theorem spanKeyKL_ok_or (docs : List Doc) (key : String) :
    (∃ y, spanKeyKL docs key = .ok y)
    ∨ ∃ j, spanKeyKL docs key = .error (.keyError j) := by
  by_cases hall : ∀ d ∈ docs, (getVal? d.spans key).isSome
  · left
    obtain ⟨groups, hg⟩ := spans_key_ok docs key hall
    have hprov := spans_group_tokens_sub hg
    have hinner : ∀ g ∈ groups, ∃ y,
        (do
          let ts ← liftKL (_get_kl_divergence (_get_distribution g.2 true) (p_corpus docs))
          pure (g.1, ts) : Except Err (Option String × List (ℚ × ℚ))) = .ok y := by
      intro g hgm
      have hkl : ∃ ts, _get_kl_divergence (_get_distribution g.2 true) (p_corpus docs)
          = .ok ts := by
        apply kl_ok_of_pos
        intro pr hpr
        obtain ⟨hpos, hmem⟩ := dist_entries_pos_mem g.2 pr hpr
        refine ⟨hpos, ?_⟩
        obtain ⟨tok, htok, htoke⟩ := List.mem_map.mp hmem
        obtain ⟨tl, htl, htokin⟩ := List.mem_flatten.mp htok
        obtain ⟨d, hd, htokd⟩ := hprov g hgm tl htl tok htokin
        apply getQ_p_corpus_pos
        rw [← htoke]
        apply List.mem_map_of_mem
        exact List.mem_flatten.mpr ⟨d.tokens, List.mem_map_of_mem Doc.tokens hd, htokd⟩
      obtain ⟨ts, hts⟩ := hkl
      exact ⟨(g.1, ts), by rw [hts, liftKL_ok, except_bind_ok]; rfl⟩
    obtain ⟨res, hres⟩ := mapM_except_ok_of_forall _ groups hinner
    refine ⟨(key, res), ?_⟩
    unfold spanKeyKL
    rw [hg, except_bind_ok, hres, except_bind_ok]
    rfl
  · right
    push_neg at hall
    obtain ⟨d, hd, hnone⟩ := hall
    have herr := spans_key_error docs key
      ⟨d, hd, Option.not_isSome_iff_eq_none.mp hnone⟩
    refine ⟨key, ?_⟩
    unfold spanKeyKL
    rw [herr, except_bind_error]

/-- Each per-key boundary-distinctiveness computation either succeeds or
fails with a `KeyError`, for a corpus whose spans are in bounds. -/
theorem boundsKeyKL_ok_or (docs : List Doc) (key : String) (hwf : corpusWF docs) :
    (∃ y, boundsKeyKL docs key = .ok y)
    ∨ ∃ j, boundsKeyKL docs key = .error (.keyError j) := by
  by_cases hall : ∀ d ∈ docs, (getVal? d.spans key).isSome
  · left
    obtain ⟨bounds, hb⟩ := bounds_key_ok docs key hall
    have hprov := bounds_group_tokens_sub hwf hb
    have hinner : ∀ g ∈ bounds, ∃ y,
        (do
          let ts ← liftKL (_get_kl_divergence
            (unigramDistribution (g.2.1 ++ g.2.2) true) (p_corpus docs))
          pure (g.1, ts) : Except Err (Option String × List (ℚ × ℚ))) = .ok y := by
      intro g hgm
      have hkl : ∃ ts, _get_kl_divergence
          (unigramDistribution (g.2.1 ++ g.2.2) true) (p_corpus docs) = .ok ts := by
        apply kl_ok_of_pos
        intro pr hpr
        obtain ⟨hpos, hmem⟩ :=
          dist_entries_pos_mem ((g.2.1 ++ g.2.2).map fun t => [t]) pr hpr
        refine ⟨hpos, ?_⟩
        rw [flatten_map_singleton] at hmem
        obtain ⟨tok, htok, htoke⟩ := List.mem_map.mp hmem
        obtain ⟨d, hd, htokd⟩ := hprov g hgm tok htok
        apply getQ_p_corpus_pos
        rw [← htoke]
        apply List.mem_map_of_mem
        exact List.mem_flatten.mpr ⟨d.tokens, List.mem_map_of_mem Doc.tokens hd, htokd⟩
      obtain ⟨ts, hts⟩ := hkl
      exact ⟨(g.1, ts), by rw [hts, liftKL_ok, except_bind_ok]; rfl⟩
    obtain ⟨res, hres⟩ := mapM_except_ok_of_forall _ bounds hinner
    refine ⟨(key, res), ?_⟩
    unfold boundsKeyKL
    rw [hb, except_bind_ok, hres, except_bind_ok]
    rfl
  · right
    push_neg at hall
    obtain ⟨d, hd, hnone⟩ := hall
    have herr := bounds_key_error docs key
      ⟨d, hd, Option.not_isSome_iff_eq_none.mp hnone⟩
    refine ⟨key, ?_⟩
    unfold boundsKeyKL
    rw [herr, except_bind_error]

/-- Claim C10: when a layer key occurs in one document but is missing from
another, `span_distinctiveness` and `boundary_distinctiveness` fail with a
key-lookup error (they index every document's span mapping with every key of
the corpus-wide union), while `frequency` and `length` succeed (they index
each document's span mapping only with its own keys). -/
theorem missing_layer_key_fails_distinctiveness_only (docs : List Doc) (k : String)
    (d1 d2 : Doc) (hd1 : d1 ∈ docs) (hd2 : d2 ∈ docs)
    (hk1 : (getVal? d1.spans k).isSome) (hk2 : getVal? d2.spans k = none)
    (hwf : corpusWF docs) :
    (∃ j, span_distinctivenessE docs = .error (.keyError j))
    ∧ (∃ j, boundary_distinctivenessE docs = .error (.keyError j))
    ∧ (∃ t, frequencyE docs = .ok t)
    ∧ (∃ t, lengthE docs = .ok t) := by
  have hkmem : k ∈ _get_all_keys docs :=
    List.mem_dedup.mpr (List.mem_flatMap.mpr ⟨d1, hd1, mem_keys_of_getVal?_isSome hk1⟩)
  have herr_span : spanKeyKL docs k = .error (.keyError k) := by
    unfold spanKeyKL
    rw [spans_key_error docs k ⟨d2, hd2, hk2⟩, except_bind_error]
  have herr_bound : boundsKeyKL docs k = .error (.keyError k) := by
    unfold boundsKeyKL
    rw [bounds_key_error docs k ⟨d2, hd2, hk2⟩, except_bind_error]
  refine ⟨?_, ?_, ?_, ?_⟩
  · unfold span_distinctivenessE
    apply mapM_except_keyError _ _ (fun key _ => spanKeyKL_ok_or docs key)
    exact ⟨k, hkmem, fun y hy => by rw [herr_span] at hy; cases hy⟩
  · unfold boundary_distinctivenessE
    apply mapM_except_keyError _ _ (fun key _ => boundsKeyKL_ok_or docs key hwf)
    exact ⟨k, hkmem, fun y hy => by rw [herr_bound] at hy; cases hy⟩
  · exact foldlM_docItems_ok (fun t items => items.foldl stepFreq t) docs []
  · obtain ⟨t, ht⟩ := foldlM_docItems_ok (fun t items => items.foldl stepLen t) docs []
    have hres : lengthE docs = .ok (t.map fun kv =>
        (kv.1, kv.2.map fun tv => (tv.1, gmean (tv.2.map fun n => (n : ℚ))))) := by
      unfold lengthE
      rw [show lengthListsE docs = .ok t from ht, except_map_ok]
    exact ⟨_, hres⟩

/-- Witness for C10 on a concrete corpus: layer `sc` present in the first
document, absent from the second. -/
theorem missing_layer_key_fails_distinctiveness_only_witness :
    (∃ j, span_distinctivenessE [exDocC1, ⟨["x"], []⟩] = .error (.keyError j))
    ∧ (∃ j, boundary_distinctivenessE [exDocC1, ⟨["x"], []⟩] = .error (.keyError j))
    ∧ (∃ t, frequencyE [exDocC1, ⟨["x"], []⟩] = .ok t)
    ∧ (∃ t, lengthE [exDocC1, ⟨["x"], []⟩] = .ok t) :=
  missing_layer_key_fails_distinctiveness_only [exDocC1, ⟨["x"], []⟩] ("sc")
    exDocC1 (⟨["x"], []⟩ : Doc) (by decide) (by decide) (by decide) (by decide)
    (by unfold corpusWF; decide)

end SpanAnalyzer
